import Mathlib

/-!
# Recursive least squares with structural-stability testing: verification

A shallow embedding of the recursive (expanding-window) least-squares
estimation engine described by the specification of this repository.  The
repository source available here consists of notebooks that *call* the
`RecursiveLS` model (construction, `fit`, `cusum`, `plot_cusum`,
`constraints=...`, `from_formula`); the implementation itself is an external
module, so the engine below is modelled from the specification text
(Sherman–Morrison rank-one recursion, residual scaling, CUSUM accumulation,
constraint reduction, stability verdicts, and the error taxonomy).

Numbers are modelled exactly: the engine state is over `ℚ` (so that every
step of the recursion is exact and executable) and the quantities that
require a square root (standardized residuals, CUSUM boundary lines) live in
`ℝ`.  "Within numerical tolerance" statements of the specification become
exact equalities in this model.

Indexing convention: observations are `data 0, data 1, ...`; "step `t`"
means the state after consuming the first `t` observations, so the initial
exact solve happens at step `k` (the spec's identification window) and the
spec's 1-based step range `k+1..T` corresponds to observation indices
`k..T-1` here.
-/

open Matrix

namespace RecLS

/-- A single regression observation: a regressor vector of fixed dimension
`k` and a scalar response.  Modelled from the spec: "Observation: a
regressor vector of fixed dimension `k` and a scalar response". -/
structure Obs (k : ℕ) where
  x : Fin k → ℚ
  y : ℚ

variable {k : ℕ}

/-- Cross-product (Gram) matrix `Xᵀ X` of the first `t` observations. -/
def gram (data : ℕ → Obs k) (t : ℕ) : Matrix (Fin k) (Fin k) ℚ :=
  ∑ s ∈ Finset.range t, Matrix.vecMulVec (data s).x (data s).x

/-- Moment vector `Xᵀ y` of the first `t` observations. -/
def bvec (data : ℕ → Obs k) (t : ℕ) : Fin k → ℚ :=
  ∑ s ∈ Finset.range t, (data s).y • (data s).x

/-- Computable matrix inverse over `ℚ` (equal to `Matrix.inv`, see
`matInv_eq_inv`). -/
def matInv (A : Matrix (Fin k) (Fin k) ℚ) : Matrix (Fin k) (Fin k) ℚ :=
  A.det⁻¹ • A.adjugate

/-- The state owned by the Recursive Update Engine.  Modelled from the spec:
"RecursionState: owns a `k×k` symmetric matrix `P` (the running inverse of
the cross-product of regressors seen so far) and a `k`-length parameter
vector `β`". -/
structure RecursionState (k : ℕ) where
  P : Matrix (Fin k) (Fin k) ℚ
  β : Fin k → ℚ

/-- Modelled from the spec (§4.2): one Sherman–Morrison rank-one update of
the engine state by the observation `o`:
`g = P x`, `f = 1 + xᵀ g`, `P ← P - g gᵀ / f`, `e = y - xᵀ β`,
`β ← β + (g / f) e`. -/
def smStep (st : RecursionState k) (o : Obs k) : RecursionState k :=
  let g := st.P *ᵥ o.x
  let f := 1 + o.x ⬝ᵥ g
  let e := o.y - o.x ⬝ᵥ st.β
  { P := st.P - f⁻¹ • Matrix.vecMulVec g g
    β := st.β + (e / f) • g }

/-- Engine state after the initial exact solve (`n = 0`) and `n` further
Sherman–Morrison updates.  Modelled from the spec (§4.2): the transition
Uninitialized → Running forms the exact cross-product inverse and OLS
estimate over the first `k` observations by direct solve; each subsequent
observation triggers `smStep`. -/
def stateAux (data : ℕ → Obs k) : ℕ → RecursionState k
  | 0 => ⟨matInv (gram data k), matInv (gram data k) *ᵥ bvec data k⟩
  | n + 1 => smStep (stateAux data n) (data (k + n))

/-- Engine state at step `t` (observations `0..t-1` consumed), for `t ≥ k`. -/
def state (data : ℕ → Obs k) (t : ℕ) : RecursionState k :=
  stateAux data (t - k)

/-- Gain vector `g_t = P_{t-1} x_t` used at the update consuming
observation `data t` (spec's step `t+1` in 1-based indexing). -/
def gain (data : ℕ → Obs k) (t : ℕ) : Fin k → ℚ :=
  (state data t).P *ᵥ (data t).x

/-- Forecast-variance scalar `f_t = 1 + x_tᵀ P_{t-1} x_t`. -/
def fscalar (data : ℕ → Obs k) (t : ℕ) : ℚ :=
  1 + (data t).x ⬝ᵥ gain data t

/-- One-step forecast error `e_t = y_t - x_tᵀ β_{t-1}`. -/
def ferr (data : ℕ → Obs k) (t : ℕ) : ℚ :=
  (data t).y - (data t).x ⬝ᵥ (state data t).β

/-- Direct batch ordinary-least-squares estimate over the first `t`
observations, by solving the normal equations `(Xᵀ X) β = Xᵀ y`.  This is
the reference definition the recursive estimate is compared against
(spec §8, "Equivalence to batch estimation"). -/
def olsEstimate (data : ℕ → Obs k) (t : ℕ) : Fin k → ℚ :=
  matInv (gram data t) *ᵥ bvec data t

/-- Residual sum of squares of the direct batch OLS fit over the first `t`
observations. -/
def rss (data : ℕ → Obs k) (t : ℕ) : ℚ :=
  ∑ s ∈ Finset.range t, ((data s).y - (data s).x ⬝ᵥ olsEstimate data t) ^ 2

/-! ## Residual & Scaling Module -/

/-- Modelled from the spec (§4.3, `RunningVarianceEstimate`): a scalar
accumulator of the cumulative sum of `e_t²/(1+f_t)` together with a step
count `n = t-k`. -/
structure RunningVarianceEstimate where
  cumsum : ℚ
  count : ℕ

/-- One update of the running variance accumulator by a `(f_t, e_t)` pair. -/
def varStep (st : RunningVarianceEstimate) (e f : ℚ) : RunningVarianceEstimate :=
  ⟨st.cumsum + e ^ 2 / (1 + f), st.count + 1⟩

/-- The running variance accumulator after consuming the residuals at
observation indices `k, k+1, ..., k+n-1` (one-pass, online). -/
def varAcc (data : ℕ → Obs k) : ℕ → RunningVarianceEstimate
  | 0 => ⟨0, 0⟩
  | n + 1 => varStep (varAcc data n) (ferr data (k + n)) (fscalar data (k + n))

/-- Modelled from the spec (§4.3): the one-pass variance estimate used to
standardize the residual of observation index `t`, computed from all
residuals up to and including the current step: `σ̂² = (cumulative sum)/n`. -/
def sigma2 (data : ℕ → Obs k) (t : ℕ) : ℚ :=
  (varAcc data (t + 1 - k)).cumsum / ((varAcc data (t + 1 - k)).count : ℚ)

/-- Modelled from the spec (§4.3): the standardized (recursive) residual
`w_t = e_t / sqrt(σ̂²·(1+f_t))`. -/
noncomputable def wres (data : ℕ → Obs k) (t : ℕ) : ℝ :=
  (ferr data t : ℝ) / Real.sqrt ((sigma2 data t : ℝ) * (1 + (fscalar data t : ℝ)))

/-! ## CUSUM Accumulator -/

/-- Modelled from the spec (§4.4, `CusumState`): running sum `S_t` of
standardized residuals, over the steps at observation indices `k..t-1`. -/
noncomputable def cusumS (data : ℕ → Obs k) (t : ℕ) : ℝ :=
  ∑ s ∈ Finset.Ico k t, wres data s

/-- Modelled from the spec (§4.4, `CusumState`): running sum `Q_t` of
squared standardized residuals. -/
noncomputable def cusumQ (data : ℕ → Obs k) (t : ℕ) : ℝ :=
  ∑ s ∈ Finset.Ico k t, (wres data s) ^ 2

/-- Error taxonomy.  Modelled from the spec (§7). -/
inductive FitError where
  | InsufficientData
  | SingularDesign
  | InvalidConstraint
  | NumericDegenerate
  | UnsupportedSignificanceLevel
deriving DecidableEq

/-- Modelled from the spec (§4.4): tabulated Brown–Durbin–Evans constant
`a` keyed by significance level; levels outside the supported set
`{0.01, 0.05, 0.10}` are rejected with `UnsupportedSignificanceLevel`. -/
def cusumCritical (level : ℚ) : Except FitError ℚ :=
  if level = 0.01 then .ok 1.143
  else if level = 0.05 then .ok 0.948
  else if level = 0.10 then .ok 0.850
  else .error .UnsupportedSignificanceLevel

/-- Modelled from the spec (§4.4): the upper CUSUM significance boundary
line `a·√n + 2a·j/√n` at the `j`-th residual (`j = t - k`), for a complete
sample with `n = T - k` residuals; the lower boundary is its negation. -/
noncomputable def cusumBoundaryUpper (a : ℚ) (n j : ℕ) : ℝ :=
  (a : ℝ) * Real.sqrt n + 2 * (a : ℝ) * j / Real.sqrt n

set_option linter.unusedVariables false in
/-- The pair of CUSUM boundary lines produced for a fit of `data` with
total sample size `T`, at step `t`.  The boundary depends only on
`n = T - k`, `j = t - k` and the tabulated constant, never on the data
values (the `data` argument is consumed only to fix the fit). -/
noncomputable def cusumBoundaryPair (data : ℕ → Obs k) (T : ℕ) (a : ℚ)
    (t : ℕ) : ℝ × ℝ :=
  (cusumBoundaryUpper a (T - k) (t - k), -cusumBoundaryUpper a (T - k) (t - k))

/-! ## Stability Verdict Module -/

/-- Whether a statistic value lies strictly outside its boundary pair
`(upper, lower)` at index `t`. -/
def violatesAt (stat : ℕ → ℝ) (bound : ℕ → ℝ × ℝ) (t : ℕ) : Prop :=
  stat t > (bound t).1 ∨ stat t < (bound t).2

/-- Final stability verdict record.  Modelled from the spec (§6):
`{statistic_name, is_stable: bool, first_violation_index: optional<int>}`
(the statistic name is carried by the caller). -/
structure StabilityVerdict where
  is_stable : Bool
  first_violation_index : Option ℕ

open Classical in
/-- Modelled from the spec (§4.5): pure function over a statistic sequence,
its boundary sequence and the number `n` of residuals: reports whether any
value in the sequence exceeds its boundary and, if so, the first crossing
index.  No hidden state: it reads nothing but its arguments. -/
noncomputable def stabilityVerdict (stat : ℕ → ℝ) (bound : ℕ → ℝ × ℝ)
    (n : ℕ) : StabilityVerdict :=
  if h : ∃ t, t < n ∧ violatesAt stat bound t then
    ⟨false, some (Nat.find h)⟩
  else
    ⟨true, none⟩

/-! ## Constraint Reducer -/

/-- An affine equality constraint `R·β = q`.  Modelled from the spec
(data model, `Constraint`). -/
structure ConstraintSpec (m k : ℕ) where
  R : Matrix (Fin m) (Fin k) ℚ
  q : Fin m → ℚ

/-- `R` has full row rank: its rows are linearly independent. -/
def fullRowRank {m k : ℕ} (R : Matrix (Fin m) (Fin k) ℚ) : Prop :=
  LinearIndependent ℚ fun i => R i

/-- The constraint system `R·β = q` has a solution. -/
def feasible {m k : ℕ} (c : ConstraintSpec m k) : Prop :=
  ∃ β₀ : Fin k → ℚ, c.R *ᵥ β₀ = c.q

/-- Modelled from the spec (§4.1): the Constraint Reducer accepts exactly
the constraints with `R` of full row rank, `m < k`, and `R·β₀ = q`
solvable. -/
def validConstraint {m k : ℕ} (c : ConstraintSpec m k) : Prop :=
  fullRowRank c.R ∧ m < k ∧ feasible c

/-- Output of the Constraint Reducer: a particular solution `β₀` of
`R·β₀ = q` and a matrix `N` whose columns lie in the null space of `R`
(the reduced basis).  Modelled from the spec (§4.1); the particular basis
chosen is not pinned down by the spec, and only the annihilation property
`R·N = 0` and `R·β₀ = q` are relied on downstream. -/
structure Reduction (m k : ℕ) where
  partSol : Fin k → ℚ
  N : Matrix (Fin k) (Fin (k - m)) ℚ

open Classical in
/-- Modelled from the spec (§4.1, §7): validate the constraint once at
setup, failing with `InvalidConstraint` when `R` is not full row rank, when
`m ≥ k`, or when `R·β₀ = q` has no solution; on success produce a
particular solution and a null-space matrix. -/
noncomputable def reduceConstraint {m k : ℕ} (c : ConstraintSpec m k) :
    Except FitError (Reduction m k) :=
  if h : validConstraint c then
    .ok ⟨Classical.choose h.2.2,
      Classical.choose (⟨0, by simp⟩ : ∃ N : Matrix (Fin k) (Fin (k - m)) ℚ, c.R * N = 0)⟩
  else
    .error .InvalidConstraint

/-- Modelled from the spec (§4.1): map a reduced estimate `γ` back to the
full parameter space through `β = β₀ + N·γ`. -/
def recoverParams {m k : ℕ} (β₀ : Fin k → ℚ) (N : Matrix (Fin k) (Fin m) ℚ)
    (γ : Fin m → ℚ) : Fin k → ℚ :=
  β₀ + N *ᵥ γ

/-- Modelled from the spec (§4.1): project an observation onto the reduced
parameter space: reduced regressors `Nᵀ·x`, response offset by the
particular solution, `y - xᵀ·β₀`. -/
def reduceObs {j : ℕ} (β₀ : Fin k → ℚ) (N : Matrix (Fin k) (Fin j) ℚ)
    (o : Obs k) : Obs j :=
  ⟨fun i => o.x ⬝ᵥ fun l => N l i, o.y - o.x ⬝ᵥ β₀⟩

/-! ## Fit pipeline and error surfacing -/

/-- Modelled from the spec (§4.2, §7): fit the recursion on `T`
observations.  Fails immediately with `InsufficientData` when fewer than
`k+1` observations are supplied (no residual can be produced), and with
`SingularDesign` at the Uninitialized → Running transition when the
cross-product of the first `k` observations is not invertible.  On success
exposes the full engine state path. -/
def fit (data : ℕ → Obs k) (T : ℕ) : Except FitError (ℕ → RecursionState k) :=
  if T < k + 1 then .error .InsufficientData
  else if (gram data k).det = 0 then .error .SingularDesign
  else .ok fun t => state data t

open Classical in
/-- Modelled from the spec: the constrained fit validates and reduces the
constraint before any recursion begins, runs the engine on the reduced
design, and reports parameter vectors recovered through `β = β₀ + N·γ`;
with no constraint supplied the Constraint Reducer is the identity map and
the engine runs on the original design. -/
noncomputable def constrainedFit {m : ℕ} (c? : Option (ConstraintSpec m k))
    (data : ℕ → Obs k) (T : ℕ) : Except FitError (ℕ → Fin k → ℚ) :=
  match c? with
  | none => (fit data T).map fun st t => (st t).β
  | some c =>
    (reduceConstraint c).bind fun red =>
      (fit (fun t => reduceObs red.partSol red.N (data t)) T).map fun st t =>
        recoverParams red.partSol red.N ((st t).β)

/-- Modelled from the spec (§1, §6): the formula interface.  Formula-string
parsing into a design matrix is an external collaborator; its output is the
response/design data and the normalized constraint, and `from_formula`
simply constructs the model from that output. -/
structure FormulaSpec (m k : ℕ) where
  parsedData : ℕ → Obs k
  parsedConstraint : Option (ConstraintSpec m k)

/-- Modelled from the spec: constructing the model via the formula
interface delegates to the direct constructor on the parser's output. -/
noncomputable def fromFormulaFit {m : ℕ} (fs : FormulaSpec m k) (T : ℕ) :
    Except FitError (ℕ → Fin k → ℚ) :=
  constrainedFit fs.parsedConstraint fs.parsedData T

/-! ## Concrete data used to exercise the theorems -/

/-- A small concrete dataset with `k = 1`: constant regressor `1` and
responses `1, 0, 1, 1, 1, ...`. -/
def sampleData : ℕ → Obs 1 :=
  fun t => ⟨![1], if t = 0 then 1 else if t = 1 then 0 else 1⟩

/-- A `k = 2` dataset whose two regressor columns are exactly collinear. -/
def flatData : ℕ → Obs 2 :=
  fun t => ⟨![1, 1], (t : ℚ)⟩

/-- An invalid constraint specification: `m = k = 1`, violating `m < k`. -/
def badConstraint : ConstraintSpec 1 1 :=
  ⟨Matrix.of ![![1]], ![0]⟩


section MatrixHelpers

variable {m n p : ℕ}

theorem matInv_eq_inv (A : Matrix (Fin k) (Fin k) ℚ) : matInv A = A⁻¹ := by
  rw [Matrix.inv_def, matInv, Ring.inverse_eq_inv]

theorem sum_mulVec {ι : Type*} (s : Finset ι) (M : ι → Matrix (Fin m) (Fin n) ℚ)
    (v : Fin n → ℚ) : (∑ i ∈ s, M i) *ᵥ v = ∑ i ∈ s, (M i *ᵥ v) := by
  ext j
  simp only [Matrix.mulVec, Matrix.dotProduct, Matrix.sum_apply, Finset.sum_apply,
    Finset.sum_mul]
  rw [Finset.sum_comm]

theorem sum_dotProduct {ι : Type*} (s : Finset ι) (v : ι → Fin m → ℚ)
    (w : Fin m → ℚ) : (∑ i ∈ s, v i) ⬝ᵥ w = ∑ i ∈ s, (v i ⬝ᵥ w) := by
  simp only [Matrix.dotProduct, Finset.sum_apply, Finset.sum_mul]
  exact Finset.sum_comm

theorem vecMulVec_mulVec (a : Fin m → ℚ) (b : Fin n → ℚ) (v : Fin n → ℚ) :
    Matrix.vecMulVec a b *ᵥ v = (b ⬝ᵥ v) • a := by
  ext i
  simp only [Matrix.mulVec, Matrix.dotProduct, Matrix.vecMulVec_apply, Pi.smul_apply,
    smul_eq_mul, Finset.mul_sum, Finset.sum_mul]
  exact Finset.sum_congr rfl fun j _ => by ring

theorem mul_vecMulVec (M : Matrix (Fin m) (Fin n) ℚ) (a : Fin n → ℚ) (b : Fin p → ℚ) :
    M * Matrix.vecMulVec a b = Matrix.vecMulVec (M *ᵥ a) b := by
  ext i j
  simp only [Matrix.mul_apply, Matrix.vecMulVec_apply, Matrix.mulVec, Matrix.dotProduct,
    Finset.sum_mul]
  exact Finset.sum_congr rfl fun l _ => by ring

theorem vecMulVec_mul (a : Fin m → ℚ) (b : Fin n → ℚ) (M : Matrix (Fin n) (Fin p) ℚ) :
    Matrix.vecMulVec a b * M = Matrix.vecMulVec a (b ᵥ* M) := by
  ext i j
  simp only [Matrix.mul_apply, Matrix.vecMulVec_apply, Matrix.vecMul, Matrix.dotProduct,
    Finset.mul_sum]
  exact Finset.sum_congr rfl fun l _ => by ring

theorem vecMulVec_mul_vecMulVec (a : Fin m → ℚ) (b c : Fin n → ℚ) (d : Fin p → ℚ) :
    Matrix.vecMulVec a b * Matrix.vecMulVec c d = (b ⬝ᵥ c) • Matrix.vecMulVec a d := by
  rw [mul_vecMulVec, vecMulVec_mulVec]
  ext i j
  simp only [Matrix.vecMulVec_apply, Matrix.smul_apply, Pi.smul_apply, smul_eq_mul]
  ring

end MatrixHelpers

section GramFacts

variable (data : ℕ → Obs k)

theorem gram_succ (t : ℕ) :
    gram data (t + 1) = gram data t + Matrix.vecMulVec (data t).x (data t).x :=
  Finset.sum_range_succ _ t

theorem bvec_succ (t : ℕ) :
    bvec data (t + 1) = bvec data t + (data t).y • (data t).x :=
  Finset.sum_range_succ _ t

theorem gram_symm (t : ℕ) : (gram data t)ᵀ = gram data t := by
  rw [gram, Matrix.transpose_sum]
  refine Finset.sum_congr rfl fun s _ => ?_
  ext i j
  simp [Matrix.vecMulVec_apply, mul_comm]

/-- The Gram matrix is positive semi-definite (as a quadratic form). -/
theorem gram_psd (t : ℕ) (v : Fin k → ℚ) : 0 ≤ v ⬝ᵥ (gram data t *ᵥ v) := by
  rw [gram, sum_mulVec]
  rw [show (v ⬝ᵥ ∑ s ∈ Finset.range t, (Matrix.vecMulVec (data s).x (data s).x *ᵥ v)) =
      ∑ s ∈ Finset.range t, v ⬝ᵥ (Matrix.vecMulVec (data s).x (data s).x *ᵥ v) from by
    rw [Matrix.dotProduct_comm, sum_dotProduct]
    exact Finset.sum_congr rfl fun s _ => Matrix.dotProduct_comm _ _]
  refine Finset.sum_nonneg fun s _ => ?_
  rw [vecMulVec_mulVec, Matrix.dotProduct_smul, smul_eq_mul, Matrix.dotProduct_comm]
  exact mul_self_nonneg _

end GramFacts

section ShermanMorrison

/-- The inverse of an invertible positive-semidefinite matrix is positive
semidefinite (as a quadratic form). -/
theorem inv_psd (A : Matrix (Fin k) (Fin k) ℚ) (hU : IsUnit A.det)
    (hpsd : ∀ v, 0 ≤ v ⬝ᵥ (A *ᵥ v)) (v : Fin k → ℚ) : 0 ≤ v ⬝ᵥ (A⁻¹ *ᵥ v) := by
  have hv : v = A *ᵥ (A⁻¹ *ᵥ v) := by
    rw [Matrix.mulVec_mulVec, Matrix.mul_nonsing_inv _ hU, Matrix.one_mulVec]
  calc (0 : ℚ) ≤ (A⁻¹ *ᵥ v) ⬝ᵥ (A *ᵥ (A⁻¹ *ᵥ v)) := hpsd _
    _ = v ⬝ᵥ (A⁻¹ *ᵥ v) := by rw [← hv] at *; rw [Matrix.dotProduct_comm]

/-- Sherman–Morrison: the rank-one-updated matrix `P - g gᵀ / f` is a right
inverse of the rank-one-updated cross-product `A + x xᵀ`. -/
theorem sm_inverse (A P : Matrix (Fin k) (Fin k) ℚ) (x : Fin k → ℚ)
    (hAP : A * P = 1) (hPsym : Pᵀ = P) (hf : (1 + x ⬝ᵥ (P *ᵥ x)) ≠ 0) :
    (A + Matrix.vecMulVec x x) *
      (P - (1 + x ⬝ᵥ (P *ᵥ x))⁻¹ • Matrix.vecMulVec (P *ᵥ x) (P *ᵥ x)) = 1 := by
  set g : Fin k → ℚ := P *ᵥ x with hg
  set f : ℚ := 1 + x ⬝ᵥ g with hfdef
  have hAg : A *ᵥ g = x := by
    rw [hg, Matrix.mulVec_mulVec, hAP, Matrix.one_mulVec]
  have hvP : x ᵥ* P = g := by rw [← Matrix.mulVec_transpose, hPsym]
  have expand : (A + Matrix.vecMulVec x x) * (P - f⁻¹ • Matrix.vecMulVec g g) =
      1 + (Matrix.vecMulVec x g - f⁻¹ • Matrix.vecMulVec x g -
        (f⁻¹ * (x ⬝ᵥ g)) • Matrix.vecMulVec x g) := by
    rw [Matrix.mul_sub, Matrix.add_mul, Matrix.add_mul, hAP, Matrix.mul_smul,
      Matrix.mul_smul, mul_vecMulVec, hAg, vecMulVec_mul, hvP,
      vecMulVec_mul_vecMulVec, smul_smul]
    abel
  have hcoeff : f⁻¹ * (x ⬝ᵥ g) = 1 - f⁻¹ := by
    have : x ⬝ᵥ g = f - 1 := by rw [hfdef]; ring
    rw [this]
    field_simp
  rw [expand, hcoeff, sub_smul, one_smul]
  abel

/-- Sherman–Morrison update of the solution of the normal equations:
`(P - g gᵀ / f) (b + y x) = P b + (e / f) g` with `e = y - xᵀ (P b)`. -/
theorem sm_solution (P : Matrix (Fin k) (Fin k) ℚ) (x b : Fin k → ℚ) (y : ℚ)
    (hPsym : Pᵀ = P) (hf : (1 + x ⬝ᵥ (P *ᵥ x)) ≠ 0) :
    (P - (1 + x ⬝ᵥ (P *ᵥ x))⁻¹ • Matrix.vecMulVec (P *ᵥ x) (P *ᵥ x)) *ᵥ
        (b + y • x) =
      P *ᵥ b + ((y - x ⬝ᵥ (P *ᵥ b)) / (1 + x ⬝ᵥ (P *ᵥ x))) • (P *ᵥ x) := by
  set g : Fin k → ℚ := P *ᵥ x with hg
  set β : Fin k → ℚ := P *ᵥ b with hβ
  set f : ℚ := 1 + x ⬝ᵥ g with hfdef
  have hgb : g ⬝ᵥ b = x ⬝ᵥ β := by
    rw [hg, hβ, Matrix.dotProduct_mulVec, ← Matrix.mulVec_transpose, hPsym]
  have hgx : g ⬝ᵥ x = f - 1 := by
    rw [hfdef, Matrix.dotProduct_comm]; ring
  have expand : (P - f⁻¹ • Matrix.vecMulVec g g) *ᵥ (b + y • x) =
      β + y • g - (f⁻¹ * (x ⬝ᵥ β)) • g - (f⁻¹ * (y * (f - 1))) • g := by
    rw [Matrix.sub_mulVec, Matrix.mulVec_add, Matrix.mulVec_add,
      Matrix.mulVec_smul, Matrix.mulVec_smul, Matrix.smul_mulVec_assoc,
      Matrix.smul_mulVec_assoc, vecMulVec_mulVec, vecMulVec_mulVec, hgb, hgx]
    simp only [smul_smul]
    module
  rw [expand]
  have hcomb : y • g - (f⁻¹ * (x ⬝ᵥ β)) • g - (f⁻¹ * (y * (f - 1))) • g =
      ((y - x ⬝ᵥ β) / f) • g := by
    rw [← sub_smul, ← sub_smul]
    congr 1
    field_simp
    ring
  have hsplit : β + y • g - (f⁻¹ * (x ⬝ᵥ β)) • g - (f⁻¹ * (y * (f - 1))) • g =
      β + (y • g - (f⁻¹ * (x ⬝ᵥ β)) • g - (f⁻¹ * (y * (f - 1))) • g) := by
    abel
  rw [hsplit, hcomb]

end ShermanMorrison

section EngineInvariant

variable (data : ℕ → Obs k)

theorem smStep_P (st : RecursionState k) (o : Obs k) :
    (smStep st o).P = st.P -
      (1 + o.x ⬝ᵥ (st.P *ᵥ o.x))⁻¹ •
        Matrix.vecMulVec (st.P *ᵥ o.x) (st.P *ᵥ o.x) := rfl

theorem smStep_β (st : RecursionState k) (o : Obs k) :
    (smStep st o).β = st.β +
      ((o.y - o.x ⬝ᵥ st.β) / (1 + o.x ⬝ᵥ (st.P *ᵥ o.x))) • (st.P *ᵥ o.x) := rfl

theorem state_init : state data k = ⟨matInv (gram data k), matInv (gram data k) *ᵥ bvec data k⟩ := by
  rw [state, Nat.sub_self]
  rfl

theorem state_step {t : ℕ} (ht : k ≤ t) :
    state data (t + 1) = smStep (state data t) (data t) := by
  rw [state, state, show t + 1 - k = (t - k) + 1 by omega, stateAux,
    show k + (t - k) = t by omega]

theorem gram_inv_symm (t : ℕ) : ((gram data t)⁻¹)ᵀ = (gram data t)⁻¹ := by
  rw [Matrix.transpose_nonsing_inv, gram_symm]

/-- The running invariant of the Recursive Update Engine: at every step
`t ≥ k` the cross-product of the observations seen so far is invertible,
`P` is its inverse, and `β` solves the normal equations over observations
`0..t-1`. -/
theorem state_spec (hk : IsUnit (gram data k).det) (t : ℕ) (ht : k ≤ t) :
    IsUnit (gram data t).det ∧
      (state data t).P = (gram data t)⁻¹ ∧
      (state data t).β = (gram data t)⁻¹ *ᵥ bvec data t := by
  induction t, ht using Nat.le_induction with
  | base =>
    refine ⟨hk, ?_, ?_⟩ <;> rw [state_init, matInv_eq_inv]
  | succ t ht ih =>
    obtain ⟨hU, hP, hβ⟩ := ih
    have hpsd : ∀ v, 0 ≤ v ⬝ᵥ ((gram data t)⁻¹ *ᵥ v) :=
      inv_psd _ hU (gram_psd data t)
    have hfpos : 0 < 1 + (data t).x ⬝ᵥ ((gram data t)⁻¹ *ᵥ (data t).x) := by
      have := hpsd (data t).x
      linarith
    have hf : 1 + (data t).x ⬝ᵥ ((gram data t)⁻¹ *ᵥ (data t).x) ≠ 0 :=
      ne_of_gt hfpos
    have hsm := sm_inverse (gram data t) (gram data t)⁻¹ (data t).x
      (Matrix.mul_nonsing_inv _ hU) (gram_inv_symm data t) hf
    rw [← gram_succ] at hsm
    have hinv : Invertible (gram data (t + 1)) :=
      Matrix.invertibleOfRightInverse _ _ hsm
    have hU' : IsUnit (gram data (t + 1)).det := by
      letI := hinv
      exact Matrix.isUnit_det_of_invertible _
    have hinvEq : (gram data (t + 1))⁻¹ =
        (gram data t)⁻¹ -
          (1 + (data t).x ⬝ᵥ ((gram data t)⁻¹ *ᵥ (data t).x))⁻¹ •
            Matrix.vecMulVec ((gram data t)⁻¹ *ᵥ (data t).x)
              ((gram data t)⁻¹ *ᵥ (data t).x) :=
      Matrix.inv_eq_right_inv hsm
    refine ⟨hU', ?_, ?_⟩
    · rw [state_step data ht, smStep_P, hP, hinvEq]
    · rw [state_step data ht, smStep_β, hP, hβ, hinvEq, bvec_succ,
        sm_solution _ _ _ _ (gram_inv_symm data t) hf]

/-- The recursive estimate at step `t ≥ k` coincides exactly with the
direct batch OLS estimate over the first `t` observations. -/
theorem state_β_eq_ols (hk : IsUnit (gram data k).det) (t : ℕ) (ht : k ≤ t) :
    (state data t).β = olsEstimate data t := by
  obtain ⟨hU, _, hβ⟩ := state_spec data hk t ht
  rw [hβ, olsEstimate, matInv_eq_inv]

end EngineInvariant

section RssFacts

variable (data : ℕ → Obs k)

theorem gram_mulVec_ols {t : ℕ} (hU : IsUnit (gram data t).det) :
    gram data t *ᵥ olsEstimate data t = bvec data t := by
  rw [olsEstimate, matInv_eq_inv, Matrix.mulVec_mulVec,
    Matrix.mul_nonsing_inv _ hU, Matrix.one_mulVec]

theorem sum_y_dot (t : ℕ) (β : Fin k → ℚ) :
    ∑ s ∈ Finset.range t, (data s).y * ((data s).x ⬝ᵥ β) = bvec data t ⬝ᵥ β := by
  rw [bvec, sum_dotProduct]
  exact Finset.sum_congr rfl fun s _ => by
    rw [Matrix.smul_dotProduct, smul_eq_mul]

theorem sum_sq_dot (t : ℕ) (β : Fin k → ℚ) :
    ∑ s ∈ Finset.range t, ((data s).x ⬝ᵥ β) ^ 2 = β ⬝ᵥ (gram data t *ᵥ β) := by
  rw [gram, sum_mulVec, Matrix.dotProduct_comm, sum_dotProduct]
  exact Finset.sum_congr rfl fun s _ => by
    rw [vecMulVec_mulVec, Matrix.smul_dotProduct, smul_eq_mul,
      Matrix.dotProduct_comm]
    ring

/-- Closed form of the batch residual sum of squares when the normal
equations are solvable exactly. -/
theorem rss_formula {t : ℕ} (hU : IsUnit (gram data t).det) :
    rss data t =
      (∑ s ∈ Finset.range t, (data s).y ^ 2) -
        bvec data t ⬝ᵥ olsEstimate data t := by
  have expand : rss data t =
      (∑ s ∈ Finset.range t, (data s).y ^ 2) -
        2 * ∑ s ∈ Finset.range t, (data s).y * ((data s).x ⬝ᵥ olsEstimate data t) +
        ∑ s ∈ Finset.range t, ((data s).x ⬝ᵥ olsEstimate data t) ^ 2 := by
    rw [rss, Finset.mul_sum, ← Finset.sum_sub_distrib, ← Finset.sum_add_distrib]
    exact Finset.sum_congr rfl fun s _ => by ring
  rw [expand, sum_y_dot, sum_sq_dot, gram_mulVec_ols data hU,
    Matrix.dotProduct_comm (olsEstimate data t)]
  ring

/-- One Sherman–Morrison step adds exactly `e_t² / f_t` to the batch
residual sum of squares. -/
theorem rss_step (hk : IsUnit (gram data k).det) {t : ℕ} (ht : k ≤ t) :
    rss data (t + 1) = rss data t + (ferr data t) ^ 2 / fscalar data t := by
  obtain ⟨hU, hP, hβ⟩ := state_spec data hk t ht
  obtain ⟨hU', _, hβ'⟩ := state_spec data hk (t + 1) (le_trans ht (Nat.le_succ t))
  have hpsd : ∀ v, 0 ≤ v ⬝ᵥ ((gram data t)⁻¹ *ᵥ v) :=
    inv_psd _ hU (gram_psd data t)
  have hfpos : 0 < fscalar data t := by
    have := hpsd (data t).x
    rw [fscalar, gain, hP]
    linarith
  have hf : fscalar data t ≠ 0 := ne_of_gt hfpos
  have holst : olsEstimate data t = (state data t).β := by
    rw [hβ, olsEstimate, matInv_eq_inv]
  have holst' : olsEstimate data (t + 1) = (state data (t + 1)).β := by
    rw [hβ', olsEstimate, matInv_eq_inv]
  have hβstep : olsEstimate data (t + 1) = olsEstimate data t +
      ((ferr data t) / fscalar data t) • ((gram data t)⁻¹ *ᵥ (data t).x) := by
    rw [holst', state_step data ht, smStep_β, ← holst, fscalar, gain, hP,
      ferr, ← holst]
  have hbg : bvec data t ⬝ᵥ ((gram data t)⁻¹ *ᵥ (data t).x) =
      (data t).x ⬝ᵥ olsEstimate data t := by
    rw [Matrix.dotProduct_mulVec, ← Matrix.mulVec_transpose,
      gram_inv_symm, ← matInv_eq_inv, ← olsEstimate, Matrix.dotProduct_comm]
  have hxg : (data t).x ⬝ᵥ ((gram data t)⁻¹ *ᵥ (data t).x) =
      fscalar data t - 1 := by
    rw [fscalar, gain, hP]
    ring
  have he : ferr data t = (data t).y - (data t).x ⬝ᵥ olsEstimate data t := by
    rw [ferr, ← holst]
  have key : bvec data (t + 1) ⬝ᵥ olsEstimate data (t + 1) =
      bvec data t ⬝ᵥ olsEstimate data t + (data t).y ^ 2 -
        (ferr data t) ^ 2 / fscalar data t := by
    rw [bvec_succ, hβstep]
    simp only [Matrix.add_dotProduct, Matrix.dotProduct_add,
      Matrix.dotProduct_smul, Matrix.smul_dotProduct, smul_eq_mul]
    rw [hbg, hxg, he]
    field_simp
    ring
  rw [rss_formula data hU, rss_formula data hU', Finset.sum_range_succ, key]
  ring

/-- The initial exact solve fits the identification window perfectly: the
batch OLS fit over the first `k` observations has zero residual sum of
squares. -/
theorem rss_init_zero (hk : IsUnit (gram data k).det) : rss data k = 0 := by
  set X : Matrix (Fin k) (Fin k) ℚ := Matrix.of fun i j => (data i.val).x j with hX
  have hgram : gram data k = Xᵀ * X := by
    ext i j
    rw [gram, Matrix.sum_apply]
    simp only [Matrix.vecMulVec_apply]
    rw [← Fin.sum_univ_eq_sum_range (fun s => (data s).x i * (data s).x j) k,
      Matrix.mul_apply]
    exact Finset.sum_congr rfl fun l _ => rfl
  have hUX : IsUnit X.det := by
    have := hk
    rw [hgram, Matrix.det_mul, Matrix.det_transpose] at this
    exact isUnit_of_mul_isUnit_left this
  have hUXt : IsUnit Xᵀ.det := by
    rw [Matrix.det_transpose]
    exact hUX
  set β : Fin k → ℚ := olsEstimate data k with hbd
  set r : Fin k → ℚ := fun l => (data l.val).y - (data l.val).x ⬝ᵥ β with hr
  have hXr : Xᵀ *ᵥ r = 0 := by
    have hnorm := gram_mulVec_ols data hk
    ext j
    have h1 : (Xᵀ *ᵥ r) j =
        ∑ s ∈ Finset.range k,
          ((data s).y * (data s).x j - ((data s).x ⬝ᵥ β) * (data s).x j) := by
      rw [Matrix.mulVec, Matrix.dotProduct,
        ← Fin.sum_univ_eq_sum_range
          (fun s => (data s).y * (data s).x j - ((data s).x ⬝ᵥ β) * (data s).x j) k]
      exact Finset.sum_congr rfl fun l _ => by
        rw [hr, hX]
        show (data l.val).x j * ((data l.val).y - (data l.val).x ⬝ᵥ β) = _
        ring
    have h2 : bvec data k j = ∑ s ∈ Finset.range k, (data s).y * (data s).x j := by
      rw [bvec, Finset.sum_apply]
      exact Finset.sum_congr rfl fun s _ => rfl
    have h3 : (gram data k *ᵥ β) j =
        ∑ s ∈ Finset.range k, ((data s).x ⬝ᵥ β) * (data s).x j := by
      rw [gram, sum_mulVec, Finset.sum_apply]
      exact Finset.sum_congr rfl fun s _ => by
        rw [vecMulVec_mulVec]
        rfl
    have h4 : (gram data k *ᵥ β) j = bvec data k j := by rw [hnorm]
    rw [h1, Finset.sum_sub_distrib, ← h2, ← h3, h4]
    simp
  have hr0 : r = 0 := by
    have h2 := congrArg (fun v => (Xᵀ)⁻¹ *ᵥ v) hXr
    simpa [Matrix.mulVec_mulVec, Matrix.nonsing_inv_mul _ hUXt,
      Matrix.one_mulVec, Matrix.mulVec_zero] using h2
  rw [rss]
  refine Finset.sum_eq_zero fun s hs => ?_
  have hsk : s < k := Finset.mem_range.mp hs
  have := congrFun hr0 ⟨s, hsk⟩
  rw [hr] at this
  simp only [Pi.zero_apply] at this
  rw [← hbd, this]
  ring

/-- Telescoped: the cumulative sum of `e_t² / f_t` over all update steps
equals the batch OLS residual sum of squares over the full sample. -/
theorem sum_ferr_sq_div_f (hk : IsUnit (gram data k).det) (T : ℕ) (hT : k ≤ T) :
    ∑ s ∈ Finset.Ico k T, (ferr data s) ^ 2 / fscalar data s = rss data T := by
  induction T, hT using Nat.le_induction with
  | base =>
    rw [Finset.Ico_self, Finset.sum_empty, rss_init_zero data hk]
  | succ T hT ih =>
    rw [Finset.sum_Ico_succ_top hT, ih, rss_step data hk hT]

end RssFacts

section VarianceAccumulator

/-- The one-pass accumulator state equals its closed form: cumulative sum
of `e²/(1+f)` over the residuals consumed so far, and step count `n`. -/
theorem varAcc_closed (data : ℕ → Obs k) (n : ℕ) :
    (varAcc data n).cumsum =
      ∑ s ∈ Finset.range n, (ferr data (k + s)) ^ 2 / (1 + fscalar data (k + s)) ∧
      (varAcc data n).count = n := by
  induction n with
  | zero => simp [varAcc]
  | succ n ih =>
    rw [varAcc, varStep, Finset.sum_range_succ]
    exact ⟨by rw [ih.1], by rw [ih.2]⟩

end VarianceAccumulator

/-! ## Claim theorems -/

/-- Claim C1: for every valid dataset (invertible initial `k×k`
cross-product, `T > k`) and every step `t` from `k` to `T`, the parameter
estimate `β_t` produced by the Sherman–Morrison rank-one recursion equals
the ordinary least-squares estimate computed by a direct batch fit over the
first `t` observations; in particular the final `β_T` equals the
full-sample OLS estimate.  In this exact-arithmetic model the agreement is
exact, which implies agreement within any tight numerical tolerance. -/
theorem sm_recursion_eq_batch_ols (data : ℕ → Obs k) (T : ℕ)
    (hk : IsUnit (gram data k).det) (_hT : k < T) (t : ℕ) (ht : k ≤ t)
    (_htT : t ≤ T) :
    (state data t).β = olsEstimate data t :=
  state_β_eq_ols data hk t ht

theorem sm_recursion_eq_batch_ols_witness :
    IsUnit (gram sampleData 1).det ∧ (1 : ℕ) < 3 ∧
      (state sampleData 3).β = olsEstimate sampleData 3 :=
  ⟨by simp [gram, Finset.sum_range_succ, sampleData, Matrix.det_fin_one,
      Matrix.vecMulVec_apply],
    by decide,
    sm_recursion_eq_batch_ols sampleData 3
      (by simp [gram, Finset.sum_range_succ, sampleData, Matrix.det_fin_one,
        Matrix.vecMulVec_apply])
      (by decide) 3 (by decide) (by decide)⟩

/-- Claim C2: for every step `t ≥ k` (observation index, i.e. the spec's
`t > k` in 1-based indexing) the standardized residual is
`w_t = e_t / sqrt(σ̂²·(1+f_t))` where `σ̂²` is the one-pass estimate
`(∑_{s=k..t} e_s²/(1+f_s)) / n` with `n = t+1-k` the number of residuals up
to and including the current step — computed online, not from the final
sample (the accumulator never reads observations beyond `t`); at the first
residual `σ̂²` is defined from that single residual.  In this real-number
model every produced value is a (finite) real number. -/
theorem standardized_residual_formula (data : ℕ → Obs k) (t : ℕ)
    (_ht : k ≤ t) :
    sigma2 data t =
      (∑ s ∈ Finset.Icc k t, (ferr data s) ^ 2 / (1 + fscalar data s)) /
        ((t + 1 - k : ℕ) : ℚ) ∧
    (varAcc data (t + 1 - k)).count = t + 1 - k ∧
    wres data t =
      (ferr data t : ℝ) /
        Real.sqrt ((sigma2 data t : ℝ) * (1 + (fscalar data t : ℝ))) ∧
    (t = k → sigma2 data t = (ferr data k) ^ 2 / (1 + fscalar data k)) := by
  have hc := varAcc_closed data (t + 1 - k)
  refine ⟨?_, hc.2, rfl, ?_⟩
  · rw [sigma2, hc.1, hc.2, ← Nat.Ico_succ_right, Finset.sum_Ico_eq_sum_range]
  · intro hts
    subst hts
    rw [sigma2, show t + 1 - t = 1 by omega]
    rw [show varAcc data 1 = varStep (varAcc data 0) (ferr data (t + 0))
      (fscalar data (t + 0)) from rfl]
    simp [varAcc, varStep]

theorem standardized_residual_formula_witness :
    (1 : ℕ) ≤ 1 ∧
      (sigma2 sampleData 1 =
        (∑ s ∈ Finset.Icc 1 1, (ferr sampleData s) ^ 2 / (1 + fscalar sampleData s)) /
          ((1 + 1 - 1 : ℕ) : ℚ) ∧
      (varAcc sampleData (1 + 1 - 1)).count = 1 + 1 - 1 ∧
      wres sampleData 1 =
        (ferr sampleData 1 : ℝ) /
          Real.sqrt ((sigma2 sampleData 1 : ℝ) * (1 + (fscalar sampleData 1 : ℝ))) ∧
      ((1 : ℕ) = 1 → sigma2 sampleData 1 =
        (ferr sampleData 1) ^ 2 / (1 + fscalar sampleData 1))) :=
  ⟨by decide, standardized_residual_formula sampleData 1 (by decide)⟩

/-- Claim C3: the tabulated CUSUM boundary constants are `a = 1.143` at the
1% level, `a = 0.948` at 5%, `a = 0.850` at 10%; the boundary at step `t`
is the pair of lines `±(a·√n + 2a·(t-k)/√n)`; and the boundary produced by
a fit is a function of `n = T - k`, `t` and the level only, so two fits
with the same sample shape yield identical boundary sequences regardless of
the data values. -/
theorem cusum_boundary_table_deterministic :
    cusumCritical 0.01 = .ok 1.143 ∧
    cusumCritical 0.05 = .ok 0.948 ∧
    cusumCritical 0.10 = .ok 0.850 ∧
    (∀ (a : ℚ) (n j : ℕ), cusumBoundaryUpper a n j =
      (a : ℝ) * Real.sqrt n + 2 * (a : ℝ) * j / Real.sqrt n) ∧
    (∀ {k' : ℕ} (d₁ d₂ : ℕ → Obs k') (T : ℕ) (a : ℚ) (t : ℕ),
      cusumBoundaryPair d₁ T a t = cusumBoundaryPair d₂ T a t) := by
  refine ⟨by norm_num [cusumCritical], by norm_num [cusumCritical],
    by norm_num [cusumCritical], fun a n j => rfl, fun d₁ d₂ T a t => rfl⟩

/-- Claim C4 (counterexample): on the concrete dataset `sampleData` with
`k = 1`, `T = 3`, `n = 2`, the final `σ̂²·n` maintained by the Residual &
Scaling Module (cumulative sum of `e_t²/(1+f_t)`) is `13/30`, while the
batch OLS residual sum of squares is `2/3`; they differ by `7/30`, far
beyond any tight numerical tolerance. -/
theorem variance_identity_cex :
    sigma2 sampleData 2 * 2 ≠ rss sampleData 3 ∧
      rss sampleData 3 - sigma2 sampleData 2 * 2 = 7 / 30 := by
  constructor <;>
    norm_num [sigma2, varAcc, varStep, ferr, fscalar, gain, state, stateAux,
      smStep, rss, olsEstimate, matInv, gram, bvec, sampleData,
      Finset.sum_range_succ, Matrix.det_fin_one, Matrix.adjugate_fin_one,
      Matrix.vecMulVec_apply, Matrix.mulVec, Matrix.dotProduct]

/-- Claim C4 (amended): the one-pass accumulator of the spec, which divides
each squared forecast error by `1 + f_t` with `f_t = 1 + x_tᵀ P_{t-1} x_t`,
does **not** reproduce the OLS residual sum of squares; the variance
identity holds for the cumulative sum with divisor `f_t` itself: for every
valid dataset, `∑_{t=k+1..T} e_t²/f_t` equals the batch OLS residual sum of
squares over the full sample, exactly. -/
theorem variance_identity_amended (data : ℕ → Obs k)
    (hk : IsUnit (gram data k).det) (T : ℕ) (hT : k ≤ T) :
    ∑ s ∈ Finset.Ico k T, (ferr data s) ^ 2 / fscalar data s = rss data T :=
  sum_ferr_sq_div_f data hk T hT

theorem variance_identity_amended_witness :
    IsUnit (gram sampleData 1).det ∧ (1 : ℕ) ≤ 3 ∧
      ∑ s ∈ Finset.Ico 1 3, (ferr sampleData s) ^ 2 / fscalar sampleData s =
        rss sampleData 3 :=
  ⟨by simp [gram, Finset.sum_range_succ, sampleData, Matrix.det_fin_one,
      Matrix.vecMulVec_apply],
    by decide,
    variance_identity_amended sampleData
      (by simp [gram, Finset.sum_range_succ, sampleData, Matrix.det_fin_one,
        Matrix.vecMulVec_apply]) 3 (by decide)⟩

/-- Claim C5: whenever an affine constraint `(R, q)` is active, every
parameter vector reported at any step `t` satisfies `R·β_t = q` exactly
(hence `‖R·β_t − q‖ < ε` for every positive tolerance), as a consequence of
recovering `β_t = β₀ + N·γ_t` through a matrix `N` annihilated by `R` (the
null-space basis) and a particular solution `β₀`.  First part: the recovery
map satisfies the constraint for any reduced estimates; second part: every
parameter path reported by the constrained fit pipeline satisfies the
constraint at every step. -/
theorem constraint_satisfaction :
    (∀ {k' m j : ℕ} (R : Matrix (Fin m) (Fin k') ℚ) (q : Fin m → ℚ)
      (β₀ : Fin k' → ℚ) (N : Matrix (Fin k') (Fin j) ℚ),
      R * N = 0 → R *ᵥ β₀ = q → ∀ (γ : ℕ → Fin j → ℚ) (t : ℕ),
        R *ᵥ recoverParams β₀ N (γ t) = q) ∧
    (∀ {k' m : ℕ} (c : ConstraintSpec m k') (data : ℕ → Obs k') (T : ℕ)
      (βs : ℕ → Fin k' → ℚ), constrainedFit (some c) data T = .ok βs →
        ∀ t, c.R *ᵥ βs t = c.q) := by
  have halg : ∀ {k' m j : ℕ} (R : Matrix (Fin m) (Fin k') ℚ) (q : Fin m → ℚ)
      (β₀ : Fin k' → ℚ) (N : Matrix (Fin k') (Fin j) ℚ),
      R * N = 0 → R *ᵥ β₀ = q → ∀ (γ : Fin j → ℚ),
        R *ᵥ recoverParams β₀ N γ = q := by
    intro k' m j R q β₀ N hN hq γ
    rw [recoverParams, Matrix.mulVec_add, Matrix.mulVec_mulVec, hN,
      Matrix.zero_mulVec, add_zero, hq]
  refine ⟨fun R q β₀ N hN hq γ t => halg R q β₀ N hN hq (γ t), ?_⟩
  intro k' m c data T βs hok t
  by_cases h : validConstraint c
  · have hred : reduceConstraint c = .ok
        ⟨Classical.choose h.2.2,
          Classical.choose
            (⟨0, by simp⟩ : ∃ N : Matrix (Fin k') (Fin (k' - m)) ℚ, c.R * N = 0)⟩ :=
      dif_pos h
    rw [show constrainedFit (some c) data T = (reduceConstraint c).bind fun red =>
        (fit (fun s => reduceObs red.partSol red.N (data s)) T).map fun st s =>
          recoverParams red.partSol red.N ((st s).β) from rfl, hred] at hok
    rw [show ∀ (x : Reduction m k')
        (f : Reduction m k' → Except FitError (ℕ → Fin k' → ℚ)),
        (Except.ok x).bind f = f x from fun x f => rfl] at hok
    rcases hfit : fit (fun s => reduceObs (Classical.choose h.2.2)
        (Classical.choose
          (⟨0, by simp⟩ : ∃ N : Matrix (Fin k') (Fin (k' - m)) ℚ, c.R * N = 0))
        (data s)) T with e | sts
    · rw [hfit] at hok
      cases hok
    · rw [hfit] at hok
      have hβs : βs = fun s => recoverParams (Classical.choose h.2.2)
          (Classical.choose
            (⟨0, by simp⟩ : ∃ N : Matrix (Fin k') (Fin (k' - m)) ℚ, c.R * N = 0))
          ((sts s).β) := by
        cases hok
        rfl
      rw [hβs]
      exact halg c.R c.q _ _
        (Classical.choose_spec
          (⟨0, by simp⟩ : ∃ N : Matrix (Fin k') (Fin (k' - m)) ℚ, c.R * N = 0))
        (Classical.choose_spec h.2.2) _
  · have hred : reduceConstraint c = .error .InvalidConstraint := dif_neg h
    rw [show constrainedFit (some c) data T = (reduceConstraint c).bind fun red =>
        (fit (fun s => reduceObs red.partSol red.N (data s)) T).map fun st s =>
          recoverParams red.partSol red.N ((st s).β) from rfl, hred] at hok
    cases hok

theorem constraint_satisfaction_witness :
    (Matrix.of ![![(1 : ℚ), -1]]) * (Matrix.of ![![(1 : ℚ)], ![(1 : ℚ)]]) = 0 ∧
    (Matrix.of ![![(1 : ℚ), -1]]) *ᵥ ![0, 0] = ![0] ∧
    (Matrix.of ![![(1 : ℚ), -1]]) *ᵥ
      recoverParams ![0, 0] (Matrix.of ![![(1 : ℚ)], ![(1 : ℚ)]])
        ((fun _ => ![5]) 0) = ![0] :=
  ⟨by simp [← Matrix.ext_iff, Fin.forall_fin_one, Fin.forall_fin_two,
      Matrix.mul_apply, Fin.sum_univ_two],
    by simp [funext_iff, Fin.forall_fin_one, Matrix.mulVec, Matrix.dotProduct,
      Fin.sum_univ_two],
    constraint_satisfaction.1 _ _ _ _
      (by simp [← Matrix.ext_iff, Fin.forall_fin_one, Fin.forall_fin_two,
        Matrix.mul_apply, Fin.sum_univ_two])
      (by simp [funext_iff, Fin.forall_fin_one, Matrix.mulVec,
        Matrix.dotProduct, Fin.sum_univ_two])
      (fun _ => ![5]) 0⟩

/-- Claim C6: for every valid dataset, at every step `t ≥ k` the matrix `P`
held in the engine state is symmetric and positive semi-definite (after the
initial exact solve and after every Sherman–Morrison update), and
consequently the scalar `f_t = 1 + x_tᵀ P_{t-1} x_t` is strictly positive
at every update step. -/
theorem P_symm_psd_f_pos (data : ℕ → Obs k) (hk : IsUnit (gram data k).det)
    (t : ℕ) (ht : k ≤ t) :
    ((state data t).P)ᵀ = (state data t).P ∧
    (∀ v, 0 ≤ v ⬝ᵥ ((state data t).P *ᵥ v)) ∧
    0 < fscalar data t := by
  obtain ⟨hU, hP, _⟩ := state_spec data hk t ht
  refine ⟨?_, ?_, ?_⟩
  · rw [hP]
    exact gram_inv_symm data t
  · intro v
    rw [hP]
    exact inv_psd _ hU (gram_psd data t) v
  · rw [fscalar, gain, hP]
    have := inv_psd _ hU (gram_psd data t) (data t).x
    linarith

theorem P_symm_psd_f_pos_witness :
    IsUnit (gram sampleData 1).det ∧ (1 : ℕ) ≤ 2 ∧
      (((state sampleData 2).P)ᵀ = (state sampleData 2).P ∧
      (∀ v, 0 ≤ v ⬝ᵥ ((state sampleData 2).P *ᵥ v)) ∧
      0 < fscalar sampleData 2) :=
  ⟨by simp [gram, Finset.sum_range_succ, sampleData, Matrix.det_fin_one,
      Matrix.vecMulVec_apply],
    by decide,
    P_symm_psd_f_pos sampleData
      (by simp [gram, Finset.sum_range_succ, sampleData, Matrix.det_fin_one,
        Matrix.vecMulVec_apply]) 2 (by decide)⟩

/-- Claim C7: a sequence with exactly `T = k` observations fails
immediately with `InsufficientData` (the error carries no payload, so no
residual is produced), and a sequence whose first `k` rows have exactly
collinear regressors (a nonzero `c` with `x_s ⬝ c = 0` for all `s < k`)
fails with `SingularDesign` at the transition to the Running state; the fit
function is pure, so neither error is ever retried. -/
theorem degenerate_detection (data : ℕ → Obs k) (T : ℕ) :
    (T = k → fit data T = .error .InsufficientData) ∧
    (∀ c : Fin k → ℚ, c ≠ 0 → (∀ s, s < k → (data s).x ⬝ᵥ c = 0) → k < T →
      fit data T = .error .SingularDesign) := by
  constructor
  · intro hTk
    rw [fit, if_pos (by omega)]
  · intro c hc hcol hkT
    have hgc : gram data k *ᵥ c = 0 := by
      rw [gram, sum_mulVec]
      refine Finset.sum_eq_zero fun s hs => ?_
      rw [vecMulVec_mulVec, hcol s (Finset.mem_range.mp hs), zero_smul]
    have hdet : (gram data k).det = 0 := by
      by_contra hdz
      have hU : IsUnit (gram data k).det := isUnit_iff_ne_zero.mpr hdz
      have hc0 : c = 0 := by
        have h2 := congrArg (fun v => (gram data k)⁻¹ *ᵥ v) hgc
        simpa [Matrix.mulVec_mulVec, Matrix.nonsing_inv_mul _ hU,
          Matrix.one_mulVec, Matrix.mulVec_zero] using h2
      exact hc hc0
    rw [fit, if_neg (by omega), if_pos hdet]

theorem degenerate_detection_witness :
    fit sampleData 1 = .error .InsufficientData ∧
      fit flatData 3 = .error .SingularDesign :=
  ⟨(degenerate_detection sampleData 1).1 rfl,
    (degenerate_detection flatData 3).2 ![1, -1]
      (by simp [funext_iff, Fin.forall_fin_two])
      (by simp [flatData, Matrix.dotProduct, Fin.sum_univ_two])
      (by decide)⟩

/-- Claim C8: the Constraint Reducer fails with `InvalidConstraint` exactly
when `R` is not of full row rank, or `m ≥ k`, or `R·β₀ = q` has no
solution; an invalid constraint aborts the whole constrained fit before any
recursion begins (independently of the data and sample size); and with no
constraint supplied the reducer is the identity map — the pipeline is
exactly the unconstrained fit on the original design. -/
theorem invalid_constraint_iff {m : ℕ} (c : ConstraintSpec m k) :
    (reduceConstraint c = .error .InvalidConstraint ↔
      ¬fullRowRank c.R ∨ k ≤ m ∨ ¬feasible c) ∧
    (∀ (data : ℕ → Obs k) (T : ℕ), ¬validConstraint c →
      constrainedFit (some c) data T = .error .InvalidConstraint) ∧
    (∀ (data : ℕ → Obs k) (T : ℕ),
      constrainedFit (none : Option (ConstraintSpec m k)) data T =
        (fit data T).map fun st t => (st t).β) := by
  refine ⟨?_, ?_, fun data T => rfl⟩
  · have hsplit : reduceConstraint c = .error .InvalidConstraint ↔
        ¬validConstraint c := by
      by_cases h : validConstraint c
      · simp [reduceConstraint, dif_pos h, h]
      · simp [reduceConstraint, dif_neg h, h]
    rw [hsplit, validConstraint, not_and_or, not_and_or, Nat.not_lt]
  · intro data T h
    simp [constrainedFit, reduceConstraint, dif_neg h, Except.bind]

theorem invalid_constraint_iff_witness :
    constrainedFit (some badConstraint) sampleData 3 =
      .error .InvalidConstraint :=
  (invalid_constraint_iff badConstraint).2.1 sampleData 3
    fun h => absurd h.2.1 (by decide)

/-- Claim C9: the Stability Verdict Module is a pure function of the
statistic sequence, its boundary sequence and the sample size: `is_stable`
is `false` exactly when some value in the sequence exceeds its boundary,
and in that case `first_violation_index` is the smallest index at which a
crossing occurs (and `none` otherwise); being a plain function of the
persisted sequences, it mutates nothing and is recomputable from them
alone. -/
theorem stability_verdict_spec (stat : ℕ → ℝ) (bound : ℕ → ℝ × ℝ) (n : ℕ) :
    ((stabilityVerdict stat bound n).is_stable = false ↔
      ∃ t, t < n ∧ violatesAt stat bound t) ∧
    (∀ j, (stabilityVerdict stat bound n).first_violation_index = some j ↔
      (j < n ∧ violatesAt stat bound j ∧
        ∀ i, i < j → ¬violatesAt stat bound i)) := by
  classical
  by_cases h : ∃ t, t < n ∧ violatesAt stat bound t
  · constructor
    · simp [stabilityVerdict, dif_pos h, h]
    · intro j
      constructor
      · intro hj
        have hfind : Nat.find h = j := by
          simpa [stabilityVerdict, dif_pos h] using hj
        obtain ⟨⟨hjn, hviol⟩, hmin⟩ := (Nat.find_eq_iff h).mp hfind
        exact ⟨hjn, hviol, fun i hij hv => hmin i hij ⟨lt_trans hij hjn, hv⟩⟩
      · rintro ⟨hjn, hviol, hmin⟩
        have hfind : Nat.find h = j :=
          (Nat.find_eq_iff h).mpr ⟨⟨hjn, hviol⟩, fun i hij hc => hmin i hij hc.2⟩
        simp [stabilityVerdict, dif_pos h, hfind]
  · constructor
    · simp [stabilityVerdict, dif_neg h, h]
    · intro j
      simp only [stabilityVerdict, dif_neg h]
      constructor
      · intro hj
        cases hj
      · rintro ⟨hjn, hviol, _⟩
        exact absurd ⟨j, hjn, hviol⟩ h

/-- Claim C10: constructing the model through the formula interface (the
external parser turns the formula, data frame and constraints string into a
design and a normalized constraint) and fitting produces exactly the same
fitted results as constructing the model directly from the corresponding
response/design data with the equivalent constraint and fitting. -/
theorem from_formula_equiv {m : ℕ} (fs : FormulaSpec m k) (T : ℕ) :
    fromFormulaFit fs T = constrainedFit fs.parsedConstraint fs.parsedData T :=
  rfl

end RecLS
